import Mathlib

/-!
Shallow embedding of the PLC operation-log validator
(`src/plc_validate/operations.ts` and the step/driver module) and proofs of
the specified properties.  External collaborators (crypto verification,
dag-cbor encoding, SHA-256, base32, base64url, ISO-8601 date parsing and CID
string parsing) are not part of the repository; they are abstracted as fields
of a context `Ctx`, and every theorem is quantified over the context.
-/

namespace Plc

/-- A service entry: `{type, endpoint}` as in `services.atproto_pds`. -/
structure ServiceEntry where
  type : String
  endpoint : String
deriving DecidableEq, Repr

/-- The operation variants (tagged union from `types.ts`):
`plc_operation` (v2), legacy v1 `create`, and `plc_tombstone`.
Maps (`verificationMethods`, `services`) are association lists. -/
inductive Op where
  | operation (verificationMethods : List (String × String))
      (rotationKeys : List String) (alsoKnownAs : List String)
      (services : List (String × ServiceEntry))
      (prev : Option String) (sig : String)
  | create (signingKey recoveryKey handle service : String)
      (prev : Option String) (sig : String)
  | tombstone (prev : String) (sig : String)
deriving DecidableEq, Repr

/-- The `prev` field of an operation (`null` is `none`; a tombstone's `prev`
is a plain string in the source, hence always `some`). -/
def Op.prev : Op → Option String
  | .operation _ _ _ _ p _ => p
  | .create _ _ _ _ p _ => p
  | .tombstone p _ => some p

/-- The `sig` field of an operation. -/
def Op.sig : Op → String
  | .operation _ _ _ _ _ s => s
  | .create _ _ _ _ _ s => s
  | .tombstone _ s => s

/-- `op.type === "plc_tombstone"`. -/
def Op.isTombstone : Op → Bool
  | .tombstone _ _ => true
  | _ => false

/-- `rotationKeys` of a v2 operation (only ever read after `normalizeOp`,
which always yields the `operation` variant; `[]` elsewhere). -/
def Op.rotationKeys : Op → List String
  | .operation _ ks _ _ _ _ => ks
  | _ => []

/-- `verificationMethods` of a v2 operation. -/
def Op.verificationMethods : Op → List (String × String)
  | .operation vm _ _ _ _ _ => vm
  | _ => []

/-- `alsoKnownAs` of a v2 operation. -/
def Op.alsoKnownAs : Op → List String
  | .operation _ _ aka _ _ _ => aka
  | _ => []

/-- `services` of a v2 operation. -/
def Op.services : Op → List (String × ServiceEntry)
  | .operation _ _ _ s _ _ => s
  | _ => []

/-- The typed validation errors from `error.ts`, plus two constructors that
model untyped runtime throws: `cidParse` for the error thrown by
`CID.fromString` on a malformed CID string, and `runtimeCrash` for the
`TypeError` raised by the non-null assertion `history.at(-1)!` on an empty
log.  The latter two are NOT among the five typed validation errors. -/
inductive PlcError where
  | misordered
  | invalidSignature (op : Op)
  | genesisHash (expected : String)
  | improperOperation (msg : String) (op : Op)
  | lateRecovery (delta : Int)
  | cidParse (s : String)
  | runtimeCrash
deriving DecidableEq, Repr

/-- The external collaborators, abstracted.  `encodeOp` is `cbor.encode(op)`
with the `sig` field present; `encodeOpNoSig` is `cbor.encode(opData)` where
`opData` is `op` with `sig` removed.  `isCidString` abstracts which strings
`CID.fromString` accepts. -/
structure Ctx where
  verifySigWithDidKey : String → List Nat → List Nat → Bool
  encodeOp : Op → List Nat
  encodeOpNoSig : Op → List Nat
  fromBase64Url : String → List Nat
  sha256 : List Nat → List Nat
  toBase32 : List Nat → String
  dateParse : String → Int
  isCidString : String → Bool

/-- `const SECOND = 1e3`. -/
def SECOND : Int := 1000

/-- `const MINUTE = 60 * SECOND`. -/
def MINUTE : Int := 60 * SECOND

/-- `const HOUR = 60 * MINUTE`. -/
def HOUR : Int := 60 * MINUTE

/-- `const RECOVERY_WINDOW = 72 * HOUR` (from `assureValidNextOp`). -/
def RECOVERY_WINDOW : Int := 72 * HOUR

/-- Modelled from the spec: CIDs are identified with their canonical base32
string form (spec section 4.1: string form is base32-lower of CIDv1, and
`cid_from_string (cid_to_string c) = c`); the implementing library
`@atcute/cid` is not part of the repository. -/
structure Cid where
  str : String
deriving DecidableEq, Repr

/-- `CID.toString`. -/
def cidToString (c : Cid) : String := c.str

/-- Modelled from the spec: `CID.fromString` parses a canonical CID string,
throwing on malformed input (spec section 4.1: fails only on malformed
input); which strings are well-formed is abstracted by `ctx.isCidString`. -/
def cidFromString (ctx : Ctx) (s : String) : Except PlcError Cid :=
  if ctx.isCidString s then .ok ⟨s⟩ else .error (.cidParse s)

/-- JavaScript `String.prototype.startsWith`, on the character sequence. -/
def strStartsWith (s pat : String) : Bool := pat.data.isPrefixOf s.data

/-- JavaScript `String.prototype.endsWith`, on the character sequence. -/
def strEndsWith (s pat : String) : Bool := pat.data.isSuffixOf s.data

/-- JavaScript `String.prototype.slice(0, n)`, on the character sequence. -/
def strTake (s : String) (n : Nat) : String := ⟨s.data.take n⟩

/-- Removes the first occurrence of `pat` from the character list, like the
JavaScript `String.prototype.replace(pat, "")` with a string pattern. -/
def removeFirstAux (pat : List Char) : List Char → List Char
  | [] => []
  | c :: rest =>
    if pat.isPrefixOf (c :: rest) then (c :: rest).drop pat.length
    else c :: removeFirstAux pat rest

/-- `str.replace(pat, "")` — JavaScript replaces only the FIRST occurrence
of a string pattern, anywhere in the string. -/
def jsReplaceOnce (s pat : String) : String :=
  ⟨removeFirstAux pat.data s.data⟩

/-- `ensureHttpPrefix` from `operations.ts`. -/
def ensureHttpPrefix (str : String) : String :=
  if strStartsWith str "http://" || strStartsWith str "https://" then str
  else "https://" ++ str

/-- `ensureAtprotoPrefix` from `operations.ts`: strips the first occurrence
of `http://` and then of `https://` before prepending `at://`. -/
def ensureAtprotoPrefix (str : String) : String :=
  if strStartsWith str "at://" then str
  else
    let stripped := jsReplaceOnce (jsReplaceOnce str "http://") "https://"
    "at://" ++ stripped

/-- `normalizeOp` from `operations.ts`: a v2 operation is returned as-is, a
v1 `create` is mapped to the v2 shape.  (Never applied to tombstones in the
source; the identity there.) -/
def normalizeOp : Op → Op
  | .create signingKey recoveryKey handle service prev sig =>
      .operation [("atproto", signingKey)]
        [recoveryKey, signingKey]
        [ensureAtprotoPrefix handle]
        [("atproto_pds", ⟨"AtprotoPersonalDataServer", ensureHttpPrefix service⟩)]
        prev sig
  | op => op

/-- `assureValidSig` from `operations.ts`: reject a signature ending in `=`
before any decoding, then return the first allowed did-key that verifies the
signature over the canonical CBOR of the operation without its `sig`. -/
def assureValidSig (ctx : Ctx) (allowedDidKeys : List String) (op : Op) :
    Except PlcError String :=
  let sig := Op.sig op
  if strEndsWith sig "=" then .error (.invalidSignature op)
  else
    let sigBytes := ctx.fromBase64Url sig
    let dataBytes := ctx.encodeOpNoSig op
    match allowedDidKeys.find?
        (fun didKey => ctx.verifySigWithDidKey didKey sigBytes dataBytes) with
    | some didKey => .ok didKey
    | none => .error (.invalidSignature op)

/-- `didForCreateOp` from `operations.ts`: `did:plc:` followed by the first
24 characters of base32 of SHA-256 of the canonical CBOR (with `sig`). -/
def didForCreateOp (ctx : Ctx) (op : Op) : String :=
  let hashOfGenesis := ctx.sha256 (ctx.encodeOp op)
  let hashB32 := ctx.toBase32 hashOfGenesis
  let truncated := strTake hashB32 24
  "did:plc:" ++ truncated

/-- The document data: `{did, verificationMethods, rotationKeys,
alsoKnownAs, services}`. -/
structure DocumentData where
  did : String
  verificationMethods : List (String × String)
  rotationKeys : List String
  alsoKnownAs : List String
  services : List (String × ServiceEntry)
deriving DecidableEq, Repr

/-- `assureValidCreationOp` from `operations.ts`: reject tombstones, verify
the signature under the operation's own (normalized) rotation keys, check
the genesis-hash DID binding, and require a null `prev`. -/
def assureValidCreationOp (ctx : Ctx) (did : String) (op : Op) :
    Except PlcError DocumentData :=
  if Op.isTombstone op then .error .misordered
  else
    let normalized := normalizeOp op
    match assureValidSig ctx (Op.rotationKeys normalized) op with
    | .error e => .error e
    | .ok _ =>
      let expectedDid := didForCreateOp ctx op
      if expectedDid ≠ did then .error (.genesisHash expectedDid)
      else if Op.prev op ≠ none then
        .error (.improperOperation "expected null prev on create" op)
      else
        .ok ⟨did, Op.verificationMethods normalized, Op.rotationKeys normalized,
             Op.alsoKnownAs normalized, Op.services normalized⟩

/-- An indexed operation: the operation, its CID in string form, and the
`createdAt` ISO timestamp supplied by storage. -/
structure IndexedOperation where
  operation : Op
  cid : String
  createdAt : String
deriving DecidableEq, Repr

/-- JavaScript `Array.prototype.indexOf`: first index, or `-1`. -/
def jsIndexOf : List String → String → Int
  | [], _ => -1
  | y :: ys, x =>
    if y = x then 0
    else
      let r := jsIndexOf ys x
      if r < 0 then -1 else r + 1

/-- JavaScript `Array.prototype.slice(0, end)` with a possibly negative
`end` (negative counts from the end, clamped at 0). -/
def jsSliceTo {α : Type} (l : List α) (n : Int) : List α :=
  if n < 0 then l.take (l.length - n.natAbs) else l.take n.toNat

/-- The result of one validation step: the nullified CIDs, the parsed
`prev`, and the updated confirmed history. -/
structure StepResult where
  nullified : List String
  prev : Option Cid
  ops : List IndexedOperation
deriving DecidableEq, Repr

/-- `assureValidNextOp` from the step-validator module: the heart of the
validator.  A falsy `prev` (null or the empty string) is misordered; the
referenced ancestor is located by CID string; a tombstone head is
misordered; an empty displaced tail is a plain extension, a non-empty one a
nullification guarded by key power and the 72-hour recovery window. -/
def assureValidNextOp (ctx : Ctx) (did : String) (ops : List IndexedOperation)
    (proposed : IndexedOperation) : Except PlcError StepResult :=
  if ops.length = 0 then
    match assureValidCreationOp ctx did proposed.operation with
    | .error e => .error e
    | .ok _ => .ok ⟨[], none, [proposed]⟩
  else
    match Op.prev proposed.operation with
    | none => .error .misordered
    | some prevStr =>
      if prevStr = "" then .error .misordered
      else
        match cidFromString ctx prevStr with
        | .error e => .error e
        | .ok proposedPrev =>
          match ops.findIdx? (fun op => cidToString proposedPrev == op.cid) with
          | none => .error .misordered
          | some indexOfPrev =>
            let opsInHistory := ops.take (indexOfPrev + 1)
            let nullified := ops.drop (indexOfPrev + 1)
            match opsInHistory.getLast? with
            | none => .error .misordered
            | some lastOp =>
              if Op.isTombstone lastOp.operation then .error .misordered
              else
                let lastOpNormalized := normalizeOp lastOp.operation
                match nullified with
                | [] =>
                  match assureValidSig ctx (Op.rotationKeys lastOpNormalized)
                      proposed.operation with
                  | .error e => .error e
                  | .ok _ => .ok ⟨[], some proposedPrev, ops ++ [proposed]⟩
                | firstNullified :: restNullified =>
                  match assureValidSig ctx (Op.rotationKeys lastOpNormalized)
                      firstNullified.operation with
                  | .error e => .error e
                  | .ok disputedSigner =>
                    let indexOfSigner :=
                      jsIndexOf (Op.rotationKeys lastOpNormalized) disputedSigner
                    let morePowerfulKeys :=
                      jsSliceTo (Op.rotationKeys lastOpNormalized) indexOfSigner
                    match assureValidSig ctx morePowerfulKeys proposed.operation with
                    | .error e => .error e
                    | .ok _ =>
                      let timeLapsed := ctx.dateParse proposed.createdAt -
                          ctx.dateParse firstNullified.createdAt
                      if 0 < (firstNullified :: restNullified).length ∧
                          timeLapsed > RECOVERY_WINDOW then
                        .error (.lateRecovery timeLapsed)
                      else
                        .ok ⟨(firstNullified :: restNullified).map (fun op => op.cid),
                             some proposedPrev, opsInHistory ++ [proposed]⟩

/-- `opToData` from the step-validator module. -/
def opToData (did : String) (op : Op) : Option DocumentData :=
  if Op.isTombstone op then none
  else
    let n := normalizeOp op
    some ⟨did, Op.verificationMethods n, Op.rotationKeys n,
          Op.alsoKnownAs n, Op.services n⟩

/-- The `for` loop in `validateOperationLog`: fold the step validator over
the operations left-to-right, threading the confirmed history. -/
def validateLoop (ctx : Ctx) (did : String) :
    List IndexedOperation → List IndexedOperation →
    Except PlcError (List IndexedOperation)
  | history, [] => .ok history
  | history, op :: rest =>
    match assureValidNextOp ctx did history op with
    | .error e => .error e
    | .ok r => validateLoop ctx did r.ops rest

/-- `validateOperationLog` from the step-validator module: fold the step
validator over the operations starting from the empty history, then derive
the document from the last history entry (`history.at(-1)!` crashes on an
empty log, modelled by `runtimeCrash`). -/
def validateOperationLog (ctx : Ctx) (did : String)
    (ops : List IndexedOperation) : Except PlcError (Option DocumentData) :=
  match validateLoop ctx did [] ops with
  | .error e => .error e
  | .ok history =>
    match history.getLast? with
    | none => .error .runtimeCrash
    | some lastOp => .ok (opToData did lastOp.operation)

/-! Helper lemmas about the components. -/

theorem assureValidSig_error_eq {ctx : Ctx} {keys : List String} {op : Op}
    {e : PlcError} (h : assureValidSig ctx keys op = .error e) :
    e = .invalidSignature op := by
  simp only [assureValidSig] at h
  split at h
  · exact (Except.error.inj h).symm
  · split at h
    · exact absurd h (by simp)
    · exact (Except.error.inj h).symm

theorem assureValidSig_nil (ctx : Ctx) (op : Op) :
    assureValidSig ctx [] op = .error (.invalidSignature op) := by
  simp only [assureValidSig]
  split <;> rfl

theorem assureValidSig_ok_mem {ctx : Ctx} {keys : List String} {op : Op}
    {k : String} (h : assureValidSig ctx keys op = .ok k) : k ∈ keys := by
  simp only [assureValidSig] at h
  split at h
  · exact absurd h (by simp)
  · split at h
    · rename_i didKey hfind
      exact (Except.ok.inj h) ▸ List.mem_of_find?_eq_some hfind
    · exact absurd h (by simp)

theorem jsIndexOf_spec {l : List String} {x : String} (hx : x ∈ l) :
    ∃ n : Nat, jsIndexOf l x = (n : Int) ∧ l[n]? = some x ∧
      ∀ j, j < n → l[j]? ≠ some x := by
  induction l with
  | nil => cases hx
  | cons y ys ih =>
    by_cases hyx : y = x
    · exact ⟨0, by simp [jsIndexOf, hyx], by simp [hyx],
        fun j hj => absurd hj (Nat.not_lt_zero j)⟩
    · have hx' : x ∈ ys := by
        rcases List.mem_cons.mp hx with h | h
        · exact absurd h.symm hyx
        · exact h
      obtain ⟨n, h1, h2, h3⟩ := ih hx'
      refine ⟨n + 1, ?_, by simpa using h2, ?_⟩
      · simp only [jsIndexOf, hyx, if_false, h1]
        norm_num
      · intro j hj
        cases j with
        | zero => simp [hyx]
        | succ j => simpa using h3 j (by omega)

theorem jsSliceTo_natCast {α : Type} (l : List α) (n : Nat) :
    jsSliceTo l (n : Int) = l.take n := by
  simp [jsSliceTo]

theorem getLast?_take_succ {α : Type} {l : List α} {i : Nat} {x : α}
    (h : l[i]? = some x) : (l.take (i + 1)).getLast? = some x := by
  rw [List.take_succ, h]
  simp

/-- Characterizes the step validator on an empty confirmed history. -/
theorem assureValidNextOp_genesis (ctx : Ctx) (did : String)
    (proposed : IndexedOperation) :
    assureValidNextOp ctx did [] proposed =
      match assureValidCreationOp ctx did proposed.operation with
      | .error e => .error e
      | .ok _ => .ok ⟨[], none, [proposed]⟩ := rfl

/-- Characterizes the step validator in the plain-extension case (the
referenced ancestor is the last confirmed operation). -/
theorem assureValidNextOp_extend_eq
    {ctx : Ctx} {did : String} {ops : List IndexedOperation}
    {proposed : IndexedOperation} {s : String} {i : Nat}
    {lastOp : IndexedOperation}
    (h0 : ops ≠ [])
    (hprev : Op.prev proposed.operation = some s)
    (hs : s ≠ "")
    (hcid : ctx.isCidString s = true)
    (hfind : ops.findIdx? (fun op => s == op.cid) = some i)
    (htail : ops.drop (i + 1) = [])
    (hlast : (ops.take (i + 1)).getLast? = some lastOp)
    (hts : Op.isTombstone lastOp.operation = false) :
    assureValidNextOp ctx did ops proposed =
      match assureValidSig ctx (Op.rotationKeys (normalizeOp lastOp.operation))
          proposed.operation with
      | .error e => .error e
      | .ok _ => .ok ⟨[], some ⟨s⟩, ops ++ [proposed]⟩ := by
  simp only [assureValidNextOp, List.length_eq_zero, h0, if_false, hprev, hs,
    cidFromString, hcid, if_true, cidToString, hfind, hlast, htail, hts,
    ite_false, ite_true, Bool.false_eq_true]

/-- Characterizes the step validator in the nullification (fork) case. -/
theorem assureValidNextOp_fork_eq
    {ctx : Ctx} {did : String} {ops : List IndexedOperation}
    {proposed : IndexedOperation} {s : String} {i : Nat}
    {lastOp firstNullified : IndexedOperation} {rest : List IndexedOperation}
    (h0 : ops ≠ [])
    (hprev : Op.prev proposed.operation = some s)
    (hs : s ≠ "")
    (hcid : ctx.isCidString s = true)
    (hfind : ops.findIdx? (fun op => s == op.cid) = some i)
    (htail : ops.drop (i + 1) = firstNullified :: rest)
    (hlast : (ops.take (i + 1)).getLast? = some lastOp)
    (hts : Op.isTombstone lastOp.operation = false) :
    assureValidNextOp ctx did ops proposed =
      match assureValidSig ctx (Op.rotationKeys (normalizeOp lastOp.operation))
          firstNullified.operation with
      | .error e => .error e
      | .ok disputedSigner =>
        match assureValidSig ctx
            (jsSliceTo (Op.rotationKeys (normalizeOp lastOp.operation))
              (jsIndexOf (Op.rotationKeys (normalizeOp lastOp.operation))
                disputedSigner))
            proposed.operation with
        | .error e => .error e
        | .ok _ =>
          if 0 < (firstNullified :: rest).length ∧
              ctx.dateParse proposed.createdAt -
                ctx.dateParse firstNullified.createdAt > RECOVERY_WINDOW then
            .error (.lateRecovery (ctx.dateParse proposed.createdAt -
              ctx.dateParse firstNullified.createdAt))
          else
            .ok ⟨(firstNullified :: rest).map (fun op => op.cid), some ⟨s⟩,
                 ops.take (i + 1) ++ [proposed]⟩ := by
  simp only [assureValidNextOp, List.length_eq_zero, h0, if_false, hprev, hs,
    cidFromString, hcid, if_true, cidToString, hfind, hlast, htail, hts,
    ite_false, ite_true, Bool.false_eq_true]

theorem assureValidCreationOp_ok_prev {ctx : Ctx} {did : String} {op : Op}
    {d : DocumentData} (h : assureValidCreationOp ctx did op = .ok d) :
    Op.prev op = none := by
  simp only [assureValidCreationOp] at h
  split at h
  · exact absurd h (by simp)
  · split at h
    · exact absurd h (by simp)
    · split at h
      · exact absurd h (by simp)
      · split at h
        · exact absurd h (by simp)
        · rename_i hprev
          simpa using hprev

/-- Characterizes the step validator when the retained head is a tombstone:
the step is rejected as misordered. -/
theorem assureValidNextOp_tomb_eq
    {ctx : Ctx} {did : String} {ops : List IndexedOperation}
    {proposed : IndexedOperation} {s : String} {i : Nat}
    {lastOp : IndexedOperation}
    (h0 : ops ≠ [])
    (hprev : Op.prev proposed.operation = some s)
    (hs : s ≠ "")
    (hcid : ctx.isCidString s = true)
    (hfind : ops.findIdx? (fun op => s == op.cid) = some i)
    (hlast : (ops.take (i + 1)).getLast? = some lastOp)
    (hts : Op.isTombstone lastOp.operation = true) :
    assureValidNextOp ctx did ops proposed = .error .misordered := by
  simp only [assureValidNextOp, List.length_eq_zero, h0, if_false, hprev, hs,
    cidFromString, hcid, if_true, cidToString, hfind, hlast, hts, ite_false,
    ite_true]

/-- On success with a located ancestor, the step keeps exactly the prefix up
to the ancestor and appends the proposed operation; the retained head is not
a tombstone and its CID is the proposed `prev`. -/
theorem assureValidNextOp_ok_located
    {ctx : Ctx} {did : String} {ops : List IndexedOperation}
    {proposed : IndexedOperation} {s : String} {i : Nat} {r : StepResult}
    (h0 : ops ≠ [])
    (hprev : Op.prev proposed.operation = some s)
    (hs : s ≠ "")
    (hcid : ctx.isCidString s = true)
    (hfind : ops.findIdx? (fun op => s == op.cid) = some i)
    (hok : assureValidNextOp ctx did ops proposed = .ok r) :
    ∃ lastOp, (ops.take (i + 1)).getLast? = some lastOp ∧
      Op.isTombstone lastOp.operation = false ∧
      lastOp.cid = s ∧
      r.ops = ops.take (i + 1) ++ [proposed] ∧
      r.prev = some ⟨s⟩ := by
  obtain ⟨hi, hp, -⟩ := List.findIdx?_eq_some_iff_getElem.mp hfind
  have hget : ops[i]? = some ops[i] := List.getElem?_eq_getElem hi
  have hlast := getLast?_take_succ hget
  have hcidEq : ops[i].cid = s := by
    simp only [beq_iff_eq] at hp
    exact hp.symm
  cases hts : Op.isTombstone ops[i].operation with
  | true =>
    rw [assureValidNextOp_tomb_eq h0 hprev hs hcid hfind hlast hts] at hok
    exact absurd hok (by simp)
  | false =>
    cases htail : ops.drop (i + 1) with
    | nil =>
      rw [assureValidNextOp_extend_eq h0 hprev hs hcid hfind htail hlast hts]
        at hok
      split at hok
      · exact absurd hok (by simp)
      · have hr := Except.ok.inj hok
        subst hr
        have hlen : ops.length ≤ i + 1 := by
          by_contra hlt
          push_neg at hlt
          have hne : ops.drop (i + 1) ≠ [] := by
            apply List.ne_nil_of_length_pos
            rw [List.length_drop]
            omega
          exact hne htail
        have htake : ops.take (i + 1) = ops := List.take_of_length_le hlen
        exact ⟨ops[i], hlast, hts, hcidEq, by rw [htake], rfl⟩
    | cons firstNullified rest =>
      rw [assureValidNextOp_fork_eq h0 hprev hs hcid hfind htail hlast hts]
        at hok
      split at hok
      · exact absurd hok (by simp)
      · split at hok
        · exact absurd hok (by simp)
        · split at hok
          · exact absurd hok (by simp)
          · have hr := Except.ok.inj hok
            subst hr
            exact ⟨ops[i], hlast, hts, hcidEq, rfl, rfl⟩

/-- Full success inversion for the step validator. -/
theorem assureValidNextOp_ok_inv {ctx : Ctx} {did : String}
    {ops : List IndexedOperation} {proposed : IndexedOperation}
    {r : StepResult}
    (hok : assureValidNextOp ctx did ops proposed = .ok r) :
    (ops = [] ∧ r.ops = [proposed] ∧ Op.prev proposed.operation = none) ∨
    (∃ s i lastOp, Op.prev proposed.operation = some s ∧ s ≠ "" ∧
      ctx.isCidString s = true ∧
      ops.findIdx? (fun op => s == op.cid) = some i ∧
      (ops.take (i + 1)).getLast? = some lastOp ∧
      Op.isTombstone lastOp.operation = false ∧ lastOp.cid = s ∧
      r.ops = ops.take (i + 1) ++ [proposed]) := by
  by_cases h0 : ops = []
  · subst h0
    rw [assureValidNextOp_genesis] at hok
    left
    split at hok
    · exact absurd hok (by simp)
    · rename_i d hcrt
      have hr := Except.ok.inj hok
      subst hr
      exact ⟨rfl, rfl, assureValidCreationOp_ok_prev hcrt⟩
  · right
    cases hprev : Op.prev proposed.operation with
    | none =>
      simp only [assureValidNextOp, List.length_eq_zero, h0, if_false, hprev]
        at hok
      exact absurd hok (by simp)
    | some s =>
      by_cases hs : s = ""
      · simp only [assureValidNextOp, List.length_eq_zero, h0, if_false,
          hprev, hs, ite_true, if_true] at hok
        exact absurd hok (by simp)
      · cases hcid : ctx.isCidString s with
        | false =>
          simp only [assureValidNextOp, List.length_eq_zero, h0, if_false,
            hprev, hs, cidFromString, hcid, ite_false, Bool.false_eq_true]
            at hok
          exact absurd hok (by simp)
        | true =>
          cases hfind : ops.findIdx? (fun op => s == op.cid) with
          | none =>
            simp only [assureValidNextOp, List.length_eq_zero, h0, if_false,
              hprev, hs, cidFromString, hcid, if_true, cidToString, hfind,
              ite_false, ite_true] at hok
            exact absurd hok (by simp)
          | some i =>
            obtain ⟨lastOp, hlast, hts, hcideq, hrops, -⟩ :=
              assureValidNextOp_ok_located h0 hprev hs hcid hfind hok
            exact ⟨s, i, lastOp, rfl, hs, hcid, hfind, hlast, hts, hcideq,
              hrops⟩

/-! Chain-linking invariant (spec invariant 1). -/

/-- Adjacent prev-links: every operation's `prev` is the string CID of its
immediate predecessor. -/
def chainLinkedB : List IndexedOperation → Bool
  | [] => true
  | [_] => true
  | a :: b :: rest =>
    (Op.prev b.operation == some a.cid) && chainLinkedB (b :: rest)

/-- The head of the history (when present) has a null `prev`. -/
def headPrevNull (ops : List IndexedOperation) : Bool :=
  match ops.head? with
  | none => true
  | some x => Op.prev x.operation == none

/-- Linear prev-linked history: null `prev` at the head and adjacent links
everywhere else. -/
def chainOK (ops : List IndexedOperation) : Bool :=
  headPrevNull ops && chainLinkedB ops

/-- The prev-link relation between adjacent history entries. -/
def prevLink (a b : IndexedOperation) : Prop :=
  Op.prev b.operation = some a.cid

theorem chainLinkedB_iff : ∀ l : List IndexedOperation,
    chainLinkedB l = true ↔ List.Chain' prevLink l
  | [] => by simp [chainLinkedB]
  | [a] => by simp [chainLinkedB]
  | a :: b :: rest => by
    rw [List.chain'_cons, ← chainLinkedB_iff (b :: rest)]
    simp [chainLinkedB, prevLink]

theorem head?_take_succ {α : Type} (l : List α) (n : Nat) :
    (l.take (n + 1)).head? = l.head? := by
  cases l <;> simp

/-! Concrete executable contexts and sample data, used to instantiate the
theorems on closed inputs. -/

/-- Byte view of a string. -/
def strBytes (s : String) : List Nat := s.data.map Char.toNat

/-- A concrete executable context: a signature verifies under a did-key
exactly when the raw signature bytes spell out that did-key, so an
operation's `sig` field names its signer. -/
def testCtx : Ctx where
  verifySigWithDidKey := fun didKey sigBytes _ => sigBytes == strBytes didKey
  encodeOp := fun _ => []
  encodeOpNoSig := fun _ => []
  fromBase64Url := strBytes
  sha256 := fun l => l
  toBase32 := fun l => String.mk (l.map Char.ofNat)
  dateParse := fun s =>
    s.data.foldl (fun a c => a * 10 + ((c.toNat : Int) - 48)) 0
  isCidString := fun s => strStartsWith s "b"

/-- A context whose crypto accepts everything, to exhibit checks that fire
before any cryptographic verification. -/
def alwaysVerifyCtx : Ctx :=
  { testCtx with verifySigWithDidKey := fun _ _ _ => true }

/-- Sample genesis operation, rotation keys `["KR", "KS"]`, signed by the
recovery key. -/
def opG : Op := .operation [] ["KR", "KS"] [] [] none "KR"

/-- Sample update signed by the weaker signing key `KS`. -/
def opA : Op := .operation [] ["KA"] [] [] (some "bG") "KS"

/-- Sample recovery operation forking over `opA`, signed by `KR`. -/
def opB : Op := .operation [] ["KB"] [] [] (some "bG") "KR"

/-- Indexed sample genesis. -/
def idxG : IndexedOperation := ⟨opG, "bG", "0"⟩

/-- Indexed sample update, created at t = 100 ms. -/
def idxA : IndexedOperation := ⟨opA, "bA", "100"⟩

/-- Indexed sample recovery, created at t = 200 ms. -/
def idxB : IndexedOperation := ⟨opB, "bB", "200"⟩

/-!
Claims.
-/

/-- C7: for every context (hence no matter what base64url decoding or
cryptographic verification would do), every allowed-did-keys list
(including the empty one) and every operation whose `sig` string ends in
`=`, `assureValidSig` fails with `InvalidSignature` for that operation. -/
theorem sig_padding_rejected_before_crypto (ctx : Ctx)
    (allowedDidKeys : List String) (op : Op)
    (h : strEndsWith (Op.sig op) "=" = true) :
    assureValidSig ctx allowedDidKeys op = .error (.invalidSignature op) := by
  simp only [assureValidSig, h, if_true]

theorem sig_padding_rejected_before_crypto_witness :
    (strEndsWith (Op.sig (Op.operation [] [] [] [] none "eHl6=")) "=" = true) ∧
    assureValidSig alwaysVerifyCtx ["K"] (.operation [] [] [] [] none "eHl6=") =
      .error (.invalidSignature (.operation [] [] [] [] none "eHl6=")) :=
  ⟨by decide, sig_padding_rejected_before_crypto alwaysVerifyCtx ["K"]
    (.operation [] [] [] [] none "eHl6=") (by decide)⟩

/-- C8: `normalizeOp` maps every v1 create operation to the v2
`plc_operation` shape with `verificationMethods = (atproto, signingKey)`,
`rotationKeys = [recoveryKey, signingKey]`, `alsoKnownAs =
[ensureAtprotoPrefix handle]`, `services.atproto_pds` pointing at
`ensureHttpPrefix service`, and `prev`/`sig` unchanged; `ensureHttpPrefix`
returns its argument unchanged when it starts with `http://` or `https://`
and otherwise prepends `https://`; `ensureAtprotoPrefix` returns its
argument unchanged when it starts with `at://` and otherwise strips the
first occurrence (anywhere in the string) of `http://` and of `https://`
before prepending `at://`. -/
theorem normalize_create_shape :
    (∀ signingKey recoveryKey handle service prev sig,
      normalizeOp (.create signingKey recoveryKey handle service prev sig) =
        .operation [("atproto", signingKey)] [recoveryKey, signingKey]
          [ensureAtprotoPrefix handle]
          [("atproto_pds",
            ⟨"AtprotoPersonalDataServer", ensureHttpPrefix service⟩)]
          prev sig) ∧
    (∀ s, (strStartsWith s "http://" || strStartsWith s "https://") = true →
      ensureHttpPrefix s = s) ∧
    (∀ s, (strStartsWith s "http://" || strStartsWith s "https://") = false →
      ensureHttpPrefix s = "https://" ++ s) ∧
    (∀ s, strStartsWith s "at://" = true → ensureAtprotoPrefix s = s) ∧
    (∀ s, strStartsWith s "at://" = false →
      ensureAtprotoPrefix s =
        "at://" ++ jsReplaceOnce (jsReplaceOnce s "http://") "https://") := by
  refine ⟨fun _ _ _ _ _ _ => rfl, fun s h => ?_, fun s h => ?_,
    fun s h => ?_, fun s h => ?_⟩
  · simp [ensureHttpPrefix, h]
  · simp [ensureHttpPrefix, h]
  · simp [ensureAtprotoPrefix, h]
  · simp [ensureAtprotoPrefix, h]

theorem normalize_create_shape_witness :
    normalizeOp (.create "KS" "KR" "alice.example" "pds.example" none "sg") =
      .operation [("atproto", "KS")] ["KR", "KS"] ["at://alice.example"]
        [("atproto_pds", ⟨"AtprotoPersonalDataServer", "https://pds.example"⟩)]
        none "sg" ∧
    ensureAtprotoPrefix "xhttp://yhttp://z" = "at://xyhttp://z" :=
  ⟨(normalize_create_shape.1 "KS" "KR" "alice.example" "pds.example" none
      "sg").trans (by decide),
   (normalize_create_shape.2.2.2.2 "xhttp://yhttp://z" (by decide)).trans
      (by decide)⟩

/-- C4: `didForCreateOp` is `did:plc:` plus the first 24 characters of the
base32 encoding of SHA-256 over the canonical CBOR of the genesis operation
with its `sig` included; and a genesis step (empty confirmed history) whose
derived DID differs from the DID the log is indexed under — the earlier
tombstone and signature checks passing — fails with `GenesisHash` carrying
the derived DID. -/
theorem genesis_hash_binding :
    (∀ (ctx : Ctx) (op : Op), didForCreateOp ctx op =
      "did:plc:" ++ strTake (ctx.toBase32 (ctx.sha256 (ctx.encodeOp op))) 24) ∧
    (∀ (ctx : Ctx) (did : String) (op : Op) (cid createdAt dk : String),
      Op.isTombstone op = false →
      assureValidSig ctx (Op.rotationKeys (normalizeOp op)) op = .ok dk →
      didForCreateOp ctx op ≠ did →
      assureValidNextOp ctx did [] (IndexedOperation.mk op cid createdAt) =
        .error (.genesisHash (didForCreateOp ctx op))) := by
  constructor
  · intro ctx op
    rfl
  · intro ctx did op cid createdAt dk hts hsig hmis
    rw [assureValidNextOp_genesis]
    simp only [assureValidCreationOp, hts, Bool.false_eq_true, if_false,
      hsig, hmis, ne_eq, not_false_iff, if_true, ite_true, ite_false]

theorem genesis_hash_binding_witness :
    assureValidNextOp testCtx "did:plc:x" [] ⟨opG, "bG", "0"⟩ =
      .error (.genesisHash "did:plc:") := by
  have h := genesis_hash_binding.2 testCtx "did:plc:x" opG "bG" "0" "KR"
    (by decide) rfl (by decide)
  have he : didForCreateOp testCtx opG = "did:plc:" := rfl
  rw [he] at h
  exact h

/-- C9: with a non-empty confirmed history, a null (absent) `prev` is
misordered, a parseable `prev` matching no confirmed CID is misordered, and
on success the FIRST matching index wins and determines the retained
prefix. -/
theorem prev_location_checks :
    (∀ (ctx : Ctx) (did : String) ops proposed, ops ≠ [] →
      Op.prev proposed.operation = none →
      assureValidNextOp ctx did ops proposed = .error .misordered) ∧
    (∀ (ctx : Ctx) (did : String) ops proposed (s : String), ops ≠ [] →
      Op.prev proposed.operation = some s → s ≠ "" →
      ctx.isCidString s = true →
      ops.findIdx? (fun op => s == op.cid) = none →
      assureValidNextOp ctx did ops proposed = .error .misordered) ∧
    (∀ (ctx : Ctx) (did : String) ops proposed (s : String) (i : Nat) r,
      ops ≠ [] →
      Op.prev proposed.operation = some s → s ≠ "" →
      ctx.isCidString s = true →
      ops.findIdx? (fun op => s == op.cid) = some i →
      assureValidNextOp ctx did ops proposed = .ok r →
      ((∃ x, ops[i]? = some x ∧ x.cid = s) ∧
        (∀ j, j < i → ∀ y, ops[j]? = some y → y.cid ≠ s)) ∧
      r.ops = ops.take (i + 1) ++ [proposed]) := by
  refine ⟨?_, ?_, ?_⟩
  · intro ctx did ops proposed h0 hprev
    simp only [assureValidNextOp, List.length_eq_zero, h0, if_false, hprev]
  · intro ctx did ops proposed s h0 hprev hs hcid hfind
    simp only [assureValidNextOp, List.length_eq_zero, h0, if_false, hprev,
      hs, cidFromString, hcid, if_true, cidToString, hfind, ite_false,
      ite_true]
  · intro ctx did ops proposed s i r h0 hprev hs hcid hfind hok
    obtain ⟨hi, hp, hfirst⟩ := List.findIdx?_eq_some_iff_getElem.mp hfind
    obtain ⟨lastOp, -, -, -, hrops, -⟩ :=
      assureValidNextOp_ok_located h0 hprev hs hcid hfind hok
    refine ⟨⟨⟨ops[i], List.getElem?_eq_getElem hi, ?_⟩, ?_⟩, hrops⟩
    · exact (beq_iff_eq.mp hp).symm
    · intro j hj y hy hcontra
      have hylt : j < ops.length := Nat.lt_trans hj hi
      rw [List.getElem?_eq_getElem hylt] at hy
      rw [← Option.some.inj hy] at hcontra
      exact hfirst j hj (beq_iff_eq.mpr hcontra.symm)

theorem prev_location_checks_witness :
    ((∃ x, [idxG, idxA][(0 : Nat)]? = some x ∧ x.cid = "bG") ∧
      (∀ j, j < 0 → ∀ y, [idxG, idxA][j]? = some y → y.cid ≠ "bG")) ∧
    (StepResult.mk ["bA"] (some ⟨"bG"⟩) [idxG, idxB]).ops =
      [idxG, idxA].take (0 + 1) ++ [idxB] :=
  prev_location_checks.2.2 testCtx "did:plc:" [idxG, idxA] idxB "bG" 0
    ⟨["bA"], some ⟨"bG"⟩, [idxG, idxB]⟩ (by decide) rfl (by decide)
    (by decide) rfl rfl

/-- C10: with a non-empty confirmed history, a non-empty `prev` string that
does not parse as a CID makes the step fail with the CID-parsing error of
`cidFromString` — which is none of the five typed validation errors — so
the parse happens before the confirmed history is searched. -/
theorem cid_parse_error_first :
    (∀ (ctx : Ctx) (did : String) ops proposed (s : String), ops ≠ [] →
      Op.prev proposed.operation = some s → s ≠ "" →
      ctx.isCidString s = false →
      assureValidNextOp ctx did ops proposed = .error (.cidParse s)) ∧
    (∀ (s : String) (op : Op) (msg d : String) (dlt : Int),
      PlcError.cidParse s ≠ .misordered ∧
      PlcError.cidParse s ≠ .invalidSignature op ∧
      PlcError.cidParse s ≠ .genesisHash d ∧
      PlcError.cidParse s ≠ .improperOperation msg op ∧
      PlcError.cidParse s ≠ .lateRecovery dlt) := by
  constructor
  · intro ctx did ops proposed s h0 hprev hs hcid
    simp only [assureValidNextOp, List.length_eq_zero, h0, if_false, hprev,
      hs, cidFromString, hcid, ite_false, Bool.false_eq_true]
  · intro s op msg d dlt
    exact ⟨by simp, by simp, by simp, by simp, by simp⟩

theorem cid_parse_error_first_witness :
    assureValidNextOp testCtx "did:plc:" [idxG]
      ⟨.operation [] [] [] [] (some "zzz") "KR", "bX", "300"⟩ =
      .error (.cidParse "zzz") :=
  cid_parse_error_first.1 testCtx "did:plc:" [idxG]
    ⟨.operation [] [] [] [] (some "zzz") "KR", "bX", "300"⟩ "zzz"
    (by decide) rfl (by decide) (by decide)

/-- C1: in the nullification case, the disputed signer identified by
verifying the first nullified operation under the head's rotation keys
determines the power index — the FIRST index of that did-key in the
rotation-key list (the lowest index wins on duplicate entries); the
strictly-more-powerful keys are the prefix before that index; the step
accepts the proposal only if its signature verifies under that prefix, and
when verification under the prefix fails (including the empty prefix when
the disputed signer sits at index 0) the step fails with
`InvalidSignature` for the proposed operation. -/
theorem nullification_power
    {ctx : Ctx} {did : String} {ops : List IndexedOperation}
    {proposed : IndexedOperation} {s : String} {i : Nat}
    {lastOp firstNullified : IndexedOperation} {rest : List IndexedOperation}
    {dk : String} {keys : List String}
    (h0 : ops ≠ [])
    (hprev : Op.prev proposed.operation = some s)
    (hs : s ≠ "")
    (hcid : ctx.isCidString s = true)
    (hfind : ops.findIdx? (fun op => s == op.cid) = some i)
    (htail : ops.drop (i + 1) = firstNullified :: rest)
    (hlast : (ops.take (i + 1)).getLast? = some lastOp)
    (hts : Op.isTombstone lastOp.operation = false)
    (hkeys : keys = Op.rotationKeys (normalizeOp lastOp.operation))
    (hsig1 : assureValidSig ctx keys firstNullified.operation = .ok dk) :
    ∃ n : Nat, jsIndexOf keys dk = (n : Int) ∧
      keys[n]? = some dk ∧
      (∀ j, j < n → keys[j]? ≠ some dk) ∧
      jsSliceTo keys (jsIndexOf keys dk) = keys.take n ∧
      (∀ e, assureValidSig ctx (keys.take n) proposed.operation = .error e →
        assureValidNextOp ctx did ops proposed =
          .error (.invalidSignature proposed.operation)) ∧
      (∀ r, assureValidNextOp ctx did ops proposed = .ok r →
        ∃ k, assureValidSig ctx (keys.take n) proposed.operation = .ok k) ∧
      (n = 0 → assureValidNextOp ctx did ops proposed =
        .error (.invalidSignature proposed.operation)) := by
  subst hkeys
  obtain ⟨n, hn, hget, hfirst⟩ := jsIndexOf_spec (assureValidSig_ok_mem hsig1)
  have hslice : jsSliceTo (Op.rotationKeys (normalizeOp lastOp.operation))
      (jsIndexOf (Op.rotationKeys (normalizeOp lastOp.operation)) dk) =
      (Op.rotationKeys (normalizeOp lastOp.operation)).take n := by
    rw [hn, jsSliceTo_natCast]
  refine ⟨n, hn, hget, hfirst, hslice, ?_, ?_, ?_⟩
  · intro e he
    rw [assureValidNextOp_fork_eq h0 hprev hs hcid hfind htail hlast hts,
      hsig1]
    simp only [hslice, he, assureValidSig_error_eq he]
  · intro r hr
    rw [assureValidNextOp_fork_eq h0 hprev hs hcid hfind htail hlast hts,
      hsig1] at hr
    simp only [hslice] at hr
    cases hm : assureValidSig ctx
        ((Op.rotationKeys (normalizeOp lastOp.operation)).take n)
        proposed.operation with
    | error e =>
      rw [hm] at hr
      simp at hr
    | ok k => exact ⟨k, rfl⟩
  · intro hn0
    subst hn0
    have hnil : assureValidSig ctx
        ((Op.rotationKeys (normalizeOp lastOp.operation)).take 0)
        proposed.operation = .error (.invalidSignature proposed.operation) := by
      rw [List.take_zero]
      exact assureValidSig_nil ctx proposed.operation
    rw [assureValidNextOp_fork_eq h0 hprev hs hcid hfind htail hlast hts,
      hsig1]
    simp only [hslice, hnil]

theorem nullification_power_witness :
    ∃ n : Nat, jsIndexOf ["KR", "KS"] "KS" = (n : Int) ∧
      ["KR", "KS"][n]? = some "KS" ∧
      (∀ j, j < n → ["KR", "KS"][j]? ≠ some "KS") ∧
      jsSliceTo ["KR", "KS"] (jsIndexOf ["KR", "KS"] "KS") =
        ["KR", "KS"].take n ∧
      (∀ e, assureValidSig testCtx (["KR", "KS"].take n) idxB.operation =
          .error e →
        assureValidNextOp testCtx "did:plc:" [idxG, idxA] idxB =
          .error (.invalidSignature idxB.operation)) ∧
      (∀ r, assureValidNextOp testCtx "did:plc:" [idxG, idxA] idxB = .ok r →
        ∃ k, assureValidSig testCtx (["KR", "KS"].take n) idxB.operation =
          .ok k) ∧
      (n = 0 → assureValidNextOp testCtx "did:plc:" [idxG, idxA] idxB =
        .error (.invalidSignature idxB.operation)) :=
  @nullification_power testCtx "did:plc:" [idxG, idxA] idxB "bG" 0
    idxG idxA [] "KS" ["KR", "KS"]
    (by decide) rfl (by decide) (by decide) rfl rfl rfl (by decide) rfl rfl

/-- C2: whenever the step performs a nullification (both signature checks
passing), it fails with `LateRecovery` carrying the delta exactly when the
delta — `dateParse` of the proposal's `createdAt` minus `dateParse` of the
FIRST nullified operation's `createdAt` — strictly exceeds
`72 * 3600 * 1000` milliseconds; a delta of exactly 72 hours, or any
negative delta, is accepted. -/
theorem recovery_window
    {ctx : Ctx} {did : String} {ops : List IndexedOperation}
    {proposed : IndexedOperation} {s : String} {i : Nat}
    {lastOp firstNullified : IndexedOperation} {rest : List IndexedOperation}
    {dk k2 : String} {keys : List String} {delta : Int}
    (h0 : ops ≠ [])
    (hprev : Op.prev proposed.operation = some s)
    (hs : s ≠ "")
    (hcid : ctx.isCidString s = true)
    (hfind : ops.findIdx? (fun op => s == op.cid) = some i)
    (htail : ops.drop (i + 1) = firstNullified :: rest)
    (hlast : (ops.take (i + 1)).getLast? = some lastOp)
    (hts : Op.isTombstone lastOp.operation = false)
    (hkeys : keys = Op.rotationKeys (normalizeOp lastOp.operation))
    (hsig1 : assureValidSig ctx keys firstNullified.operation = .ok dk)
    (hsig2 : assureValidSig ctx (jsSliceTo keys (jsIndexOf keys dk))
        proposed.operation = .ok k2)
    (hdelta : delta = ctx.dateParse proposed.createdAt -
        ctx.dateParse firstNullified.createdAt) :
    (assureValidNextOp ctx did ops proposed =
        .error (.lateRecovery delta) ↔ delta > RECOVERY_WINDOW) ∧
    (delta ≤ RECOVERY_WINDOW →
      assureValidNextOp ctx did ops proposed =
        .ok ⟨(firstNullified :: rest).map (fun op => op.cid), some ⟨s⟩,
             ops.take (i + 1) ++ [proposed]⟩) ∧
    RECOVERY_WINDOW = 72 * 3600 * 1000 := by
  subst hkeys
  subst hdelta
  have heq := @assureValidNextOp_fork_eq ctx did ops proposed s i lastOp
    firstNullified rest h0 hprev hs hcid hfind htail hlast hts
  simp only [hsig1, hsig2] at heq
  have hpos : 0 < (firstNullified :: rest).length := by simp
  refine ⟨⟨?_, ?_⟩, ?_, by decide⟩
  · intro hstep
    by_contra hw
    rw [if_neg (fun hc => hw hc.2)] at heq
    rw [heq] at hstep
    exact absurd hstep (by simp)
  · intro hw
    rw [if_pos ⟨hpos, hw⟩] at heq
    exact heq
  · intro hw
    rw [if_neg (fun hc => absurd hc.2 (not_lt.mpr hw))] at heq
    exact heq

theorem recovery_window_witness :
    (assureValidNextOp testCtx "did:plc:" [idxG, idxA] idxB =
        .error (.lateRecovery 100) ↔ (100 : Int) > RECOVERY_WINDOW) ∧
    ((100 : Int) ≤ RECOVERY_WINDOW →
      assureValidNextOp testCtx "did:plc:" [idxG, idxA] idxB =
        .ok ⟨[idxA].map (fun op => op.cid), some ⟨"bG"⟩,
             [idxG, idxA].take (0 + 1) ++ [idxB]⟩) ∧
    RECOVERY_WINDOW = 72 * 3600 * 1000 :=
  @recovery_window testCtx "did:plc:" [idxG, idxA] idxB "bG" 0
    idxG idxA [] "KS" "KR" ["KR", "KS"] 100
    (by decide) rfl (by decide) (by decide) rfl rfl rfl (by decide) rfl rfl
    rfl (by decide)

/-- C5: chain continuity — when the confirmed history is linearly
prev-linked (null `prev` at the head, every later `prev` equal to the
string CID of the immediate predecessor), any successful step returns a
history satisfying the same invariant. -/
theorem chain_continuity
    {ctx : Ctx} {did : String} {ops : List IndexedOperation}
    {proposed : IndexedOperation} {r : StepResult}
    (hchain : chainOK ops = true)
    (hok : assureValidNextOp ctx did ops proposed = .ok r) :
    chainOK r.ops = true := by
  rcases assureValidNextOp_ok_inv hok with
    ⟨h0, hrops, hpn⟩ |
    ⟨s, i, lastOp, hprev, hs, hcid, hfind, hlast, hts, hcideq, hrops⟩
  · rw [hrops]
    simp [chainOK, headPrevNull, chainLinkedB, hpn]
  · rw [hrops]
    simp only [chainOK, Bool.and_eq_true] at hchain
    obtain ⟨hh, hl⟩ := hchain
    have hops0 : ops ≠ [] := by
      intro h
      subst h
      simp at hfind
    simp only [chainOK, Bool.and_eq_true]
    constructor
    · cases ops with
      | nil => exact absurd rfl hops0
      | cons a as =>
        simp only [List.take_succ_cons, List.cons_append, headPrevNull,
          List.head?_cons] at hh ⊢
        exact hh
    · rw [chainLinkedB_iff, List.chain'_append]
      refine ⟨((chainLinkedB_iff ops).mp hl).take (i + 1),
        List.chain'_singleton _, ?_⟩
      intro x hx y hy
      rw [hlast] at hx
      simp only [Option.mem_def, Option.some.injEq] at hx
      simp only [List.head?_cons, Option.mem_def, Option.some.injEq] at hy
      subst hx
      subst hy
      show Op.prev proposed.operation = some lastOp.cid
      rw [hcideq]
      exact hprev

theorem chain_continuity_witness :
    chainOK [idxG, idxA] = true ∧ chainOK [idxG, idxB] = true := by
  refine ⟨by decide, ?_⟩
  exact @chain_continuity testCtx "did:plc:" [idxG, idxA] idxB
    ⟨["bA"], some ⟨"bG"⟩, [idxG, idxB]⟩ (by decide) rfl

/-- Invariant 2 of the spec: only the final history entry may be a
tombstone. -/
def tombstoneOnlyLast (ops : List IndexedOperation) : Bool :=
  ops.dropLast.all (fun e => !(Op.isTombstone e.operation))

/-- C3: when the confirmed operation referenced by the proposal's `prev`
(the retained head) is a tombstone, the step fails with
`MisorderedOperation`; consequently a successful step never returns a
history that strictly extends a prefix ending in a tombstone, so no
extension of a tombstone-terminated prefix ever validates. -/
theorem tombstone_finality :
    (∀ (ctx : Ctx) (did : String) ops proposed (s : String) (i : Nat) lastOp,
      ops ≠ [] →
      Op.prev proposed.operation = some s → s ≠ "" →
      ctx.isCidString s = true →
      ops.findIdx? (fun op => s == op.cid) = some i →
      (ops.take (i + 1)).getLast? = some lastOp →
      Op.isTombstone lastOp.operation = true →
      assureValidNextOp ctx did ops proposed = .error .misordered) ∧
    (∀ (ctx : Ctx) (did : String) ops proposed r,
      tombstoneOnlyLast ops = true →
      assureValidNextOp ctx did ops proposed = .ok r →
      ∀ q t, Op.isTombstone t.operation = true → (q ++ [t]) <+: r.ops →
        q ++ [t] = r.ops) := by
  constructor
  · intro ctx did ops proposed s i lastOp h0 hprev hs hcid hfind hlast hts
    exact assureValidNextOp_tomb_eq h0 hprev hs hcid hfind hlast hts
  · intro ctx did ops proposed r honly hok q t htomb hpre
    rcases assureValidNextOp_ok_inv hok with
      ⟨h0, hrops, -⟩ |
      ⟨s, i, lastOp, hprev, hs, hcid, hfind, hlast, hts, hcideq, hrops⟩
    · rw [hrops] at hpre ⊢
      have hlen := hpre.length_le
      simp only [List.length_append, List.length_singleton] at hlen
      refine hpre.eq_of_length ?_
      simp only [List.length_append, List.length_singleton]
      omega
    · rw [hrops] at hpre ⊢
      by_cases hleneq :
          (q ++ [t]).length = (ops.take (i + 1) ++ [proposed]).length
      · exact hpre.eq_of_length hleneq
      · exfalso
        have hle := hpre.length_le
        simp only [List.length_append, List.length_singleton] at hle hleneq
        have hqlt : q.length + 1 ≤ (ops.take (i + 1)).length := by omega
        have hTlt : q.length < (ops.take (i + 1)).length := by omega
        obtain ⟨u, hu⟩ := hpre
        have ht2 : (ops.take (i + 1))[q.length]? = some t := by
          have h1 : ((q ++ [t]) ++ u)[q.length]? = some t := by
            rw [List.getElem?_append_left (by simp)]
            exact List.getElem?_concat_length q t
          rw [hu, List.getElem?_append_left hTlt] at h1
          exact h1
        by_cases hend : q.length + 1 = (ops.take (i + 1)).length
        · -- t is the retained head, which is not a tombstone
          rw [List.getLast?_eq_getElem?] at hlast
          have : (ops.take (i + 1))[q.length]? = some lastOp := by
            rw [← hlast]
            congr 1
            omega
          rw [ht2] at this
          rw [← Option.some.inj this] at hts
          rw [htomb] at hts
          cases hts
        · -- t is an interior confirmed operation, excluded by the invariant
          have hTle : (ops.take (i + 1)).length ≤ ops.length :=
            (List.take_sublist _ _).length_le
          have hlt2 : q.length < i + 1 := by
            have := List.length_take (i + 1) ops
            omega
          have hops? : ops[q.length]? = some t := by
            rw [← List.getElem?_take_of_lt hlt2]
            exact ht2
          have hdrop? : ops.dropLast[q.length]? = some t := by
            rw [List.getElem?_dropLast, if_pos (by omega)]
            exact hops?
          have hmem : t ∈ ops.dropLast := List.getElem?_mem hdrop?
          have := List.all_eq_true.mp honly t hmem
          rw [htomb] at this
          cases this

/-- Sample tombstone closing the history after the genesis. -/
def opT : Op := .tombstone "bG" "KR"

/-- Indexed sample tombstone. -/
def idxT : IndexedOperation := ⟨opT, "bT", "150"⟩

/-- Sample operation trying to extend past the tombstone. -/
def idxX : IndexedOperation :=
  ⟨.operation [] [] [] [] (some "bT") "KR", "bX", "250"⟩

theorem tombstone_finality_witness :
    assureValidNextOp testCtx "did:plc:" [idxG, idxT] idxX =
      .error .misordered :=
  tombstone_finality.1 testCtx "did:plc:" [idxG, idxT] idxX "bT" 1 idxT
    (by decide) rfl (by decide) (by decide) rfl rfl (by decide)

/-- C6: `validateOperationLog` folds the step validator left-to-right from
the empty history; on success the result is `none` exactly when the final
history entry is a tombstone, and otherwise it is the document whose
non-`did` fields come from normalizing that entry and whose `did` field is
the `did` argument. -/
theorem log_driver_result
    {ctx : Ctx} {did : String} {ops : List IndexedOperation}
    {x : Option DocumentData}
    (h : validateOperationLog ctx did ops = .ok x) :
    ∃ history lastOp, validateLoop ctx did [] ops = .ok history ∧
      history.getLast? = some lastOp ∧
      (x = none ↔ Op.isTombstone lastOp.operation = true) ∧
      (Op.isTombstone lastOp.operation = false →
        x = some ⟨did, Op.verificationMethods (normalizeOp lastOp.operation),
          Op.rotationKeys (normalizeOp lastOp.operation),
          Op.alsoKnownAs (normalizeOp lastOp.operation),
          Op.services (normalizeOp lastOp.operation)⟩) := by
  unfold validateOperationLog at h
  split at h
  · exact absurd h (by simp)
  · rename_i history hloop
    split at h
    · exact absurd h (by simp)
    · rename_i lastOp hlastEq
      have hx := Except.ok.inj h
      cases hts : Op.isTombstone lastOp.operation with
      | true =>
        refine ⟨history, lastOp, hloop, hlastEq, ?_, ?_⟩
        · rw [← hx]
          simp [opToData, hts]
        · intro hf
          rw [hts] at hf
          cases hf
      | false =>
        refine ⟨history, lastOp, hloop, hlastEq, ?_, ?_⟩
        · rw [← hx]
          simp [opToData, hts]
        · intro _
          rw [← hx]
          simp [opToData, hts]

theorem log_driver_result_witness :
    ∃ history lastOp,
      validateLoop testCtx "did:plc:" [] [idxG, idxA, idxB] = .ok history ∧
      history.getLast? = some lastOp ∧
      ((some (DocumentData.mk "did:plc:" [] ["KB"] [] []) :
          Option DocumentData) = none ↔
        Op.isTombstone lastOp.operation = true) ∧
      (Op.isTombstone lastOp.operation = false →
        (some (DocumentData.mk "did:plc:" [] ["KB"] [] []) :
            Option DocumentData) =
          some ⟨"did:plc:",
            Op.verificationMethods (normalizeOp lastOp.operation),
            Op.rotationKeys (normalizeOp lastOp.operation),
            Op.alsoKnownAs (normalizeOp lastOp.operation),
            Op.services (normalizeOp lastOp.operation)⟩) :=
  @log_driver_result testCtx "did:plc:" [idxG, idxA, idxB]
    (some ⟨"did:plc:", [], ["KB"], [], []⟩) rfl

end Plc
